import Mathlib

/-!
Verification of the rolling-notes core: the jot history / interval state
machine.  The definitions below are a shallow embedding of the Rust source
(`src/main.rs`): `Vec` becomes `List`, `chrono::NaiveDate` becomes an
integer day count, the ambient `chrono::Utc::now().date_naive()` becomes an
explicit `now` parameter, and operations whose Rust body can panic
(`unwrap`, out-of-bounds `Vec` indexing) return `Option`, with `none`
standing for the panic.
-/

/-- Calendar dates carry no time-of-day component; we embed `chrono::NaiveDate`
as an integer day count, which preserves exactly the structure the program
uses: equality and the total order. -/
abbrev Date := Int

/-- The closed enumeration of jot lifecycle states (the `InProgess` spelling
is the source's). -/
inductive JotState where
  | Completed
  | Removed
  | InProgess
  | Failed
  | NotStarted
deriving DecidableEq

/-- A single trackable item: free-text content plus a lifecycle state. -/
structure Jot where
  value : String
  state : JotState
deriving DecidableEq

/-- `Jot::is_terminal`: true iff the state is Completed, Removed or Failed. -/
def Jot.is_terminal (j : Jot) : Bool :=
  match j.state with
  | .Completed | .Removed | .Failed => true
  | .InProgess | .NotStarted => false

/-- `DateInterval`: a tagged time span, open-ended (`InProgress`) or closed
(`Complete`). -/
inductive DateInterval where
  | InProgress (start : Date)
  | Complete (start : Date) (endDate : Date)
deriving DecidableEq

/-- `JotSet`: an ordered sequence of jots bound to one interval. -/
structure JotSet where
  jots : List Jot
  interval : DateInterval
deriving DecidableEq

/-- `JotSet::default`: empty jots, `InProgress` starting today.  The ambient
current date is passed explicitly. -/
def JotSet.defaultSet (today : Date) : JotSet :=
  { jots := [], interval := .InProgress today }

/-- `JotSet::get_non_terminal_jots`: copies of all non-terminal jots, in
original relative order. -/
def JotSet.get_non_terminal_jots (s : JotSet) : List Jot :=
  s.jots.filter (fun j => !j.is_terminal)

/-- `JotSet::filter_by_states`: empty state list returns a clone; otherwise
keeps exactly the jots whose state is contained in `states`, same interval. -/
def JotSet.filter_by_states (s : JotSet) (states : List JotState) : JotSet :=
  if states.isEmpty then s
  else
    { jots := s.jots.filter (fun j => states.contains j.state),
      interval := s.interval }

/-- `JotHistory`: the ordered sequence of jot sets. -/
structure JotHistory where
  sets : List JotSet
deriving DecidableEq

/-- `JotHistory::roll`: pop the last set (`unwrap`: `none` models the panic on
an empty history), collect its non-terminal jots, close its interval (an
already-`Complete` interval is rebuilt unchanged), push it back, then push a
new current set of the rolled jots starting `now`. -/
def JotHistory.roll (h : JotHistory) (now : Date) : Option JotHistory :=
  match h.sets.getLast? with
  | none => none
  | some last_jotset =>
    let rolled_jots := last_jotset.get_non_terminal_jots
    let closed : JotSet :=
      { jots := last_jotset.jots,
        interval :=
          match last_jotset.interval with
          | .Complete start endDate => .Complete start endDate
          | .InProgress start => .Complete start now }
    let new_jotset : JotSet :=
      { jots := rolled_jots, interval := .InProgress now }
    some { sets := h.sets.dropLast ++ [closed, new_jotset] }

/-- `JotHistory::get`: clone of the last set; `none` models the `unwrap`
panic on an empty history. -/
def JotHistory.get (h : JotHistory) : Option JotSet :=
  h.sets.getLast?

/-- `JotHistory::get_with_date`: first set in stored order whose interval
contains the date (`InProgress`: `date >= start`; `Complete`:
`start <= date <= end`). -/
def JotHistory.get_with_date (h : JotHistory) (date : Date) : Option JotSet :=
  h.sets.find? (fun set =>
    match set.interval with
    | .InProgress start => decide (start ≤ date)
    | .Complete start endDate => decide (start ≤ date) && decide (date ≤ endDate))

/-- `JotHistory::insert`: push the jot onto the last set's jot sequence;
`none` models the `unwrap` panic on an empty history. -/
def JotHistory.insert (h : JotHistory) (jot : Jot) : Option JotHistory :=
  match h.sets.getLast? with
  | none => none
  | some last =>
    some { sets := h.sets.dropLast ++
                   [{ jots := last.jots ++ [jot], interval := last.interval }] }

/-- `JotHistory::set_jot`: pop the last set, overwrite the jot at `index`,
push the set back.  `none` models both panics: the `unwrap` on an empty
history and the out-of-bounds `Vec` index. -/
def JotHistory.set_jot (h : JotHistory) (jot : Jot) (index : Nat) : Option JotHistory :=
  match h.sets.getLast? with
  | none => none
  | some jot_set =>
    if index < jot_set.jots.length then
      some { sets := h.sets.dropLast ++
                     [{ jots := jot_set.jots.set index jot,
                        interval := jot_set.interval }] }
    else none

/-- `JotHistory::set`: pop the last set (a no-op on an empty sequence, as
`Vec::pop` returns an ignored `Option`) and push the replacement. -/
def JotHistory.set (h : JotHistory) (s : JotSet) : JotHistory :=
  { sets := h.sets.dropLast ++ [s] }

/-- `JotHistory::get_date_intervals`: one interval per set, stored order. -/
def JotHistory.get_date_intervals (h : JotHistory) : List DateInterval :=
  h.sets.map (fun s => s.interval)

/-!
Spec-side helper definitions, written from the specification's words.  They
are compared against the source-derived operations in the theorems below.
-/

/-- Spec wording for closing an interval during roll: `InProgress{start}`
becomes `Complete{start, end: today}`; an already-`Complete` interval is
left unchanged. -/
def specCloseInterval (i : DateInterval) (today : Date) : DateInterval :=
  match i with
  | .InProgress start => .Complete start today
  | .Complete start endDate => .Complete start endDate

/-- Spec containment rule: an `InProgress{start}` interval contains `d` iff
`d >= start`; a `Complete{start, end}` interval contains `d` iff
`start <= d <= end`. -/
def DateInterval.containsDate (i : DateInterval) (d : Date) : Bool :=
  match i with
  | .InProgress start => decide (start ≤ d)
  | .Complete start endDate => decide (start ≤ d) && decide (d ≤ endDate)

/-- The start date of an interval, either tag. -/
def DateInterval.startDate : DateInterval → Date
  | .InProgress start => start
  | .Complete start _ => start

/-- Whether the interval is `Complete`. -/
def DateInterval.isComplete : DateInterval → Bool
  | .InProgress _ => false
  | .Complete _ _ => true

/-!
The reachable states of a `JotHistory`: construction produces one default
set; the mutating operations are `insert`, `set_jot` (replace_jot), `set`
(replace_current_set) and `roll`.  The fallible operations contribute a
successor state only when they succeed (a panic kills the process and
leaves no in-memory state behind).
-/

/-- Histories reachable from construction by the mutating operations. -/
inductive Reachable : JotHistory → Prop where
  | init (today : Date) : Reachable { sets := [JotSet.defaultSet today] }
  | insert {h h' : JotHistory} (jot : Jot) :
      Reachable h → h.insert jot = some h' → Reachable h'
  | set_jot {h h' : JotHistory} (jot : Jot) (index : Nat) :
      Reachable h → h.set_jot jot index = some h' → Reachable h'
  | set {h : JotHistory} (s : JotSet) : Reachable h → Reachable (h.set s)
  | roll {h h' : JotHistory} (now : Date) :
      Reachable h → h.roll now = some h' → Reachable h'

/-!
Serialization.  The program persists the history with `serde_json` derive
code, which is not part of this repository's source.
-/

/-- Modelled from the spec: the persisted form is "a structured record of
`sets`, each with `jots` (content+state pairs) and an `interval` tagged
union (`InProgress{start}` or `Complete{start,end}`); dates are calendar
dates".  JSON values as produced by the derived serde serializers. -/
inductive Json where
  | num (n : Int)
  | str (s : String)
  | arr (items : List Json)
  | obj (fields : List (String × Json))

/-- Modelled from the spec: a `JotState` serializes as its variant name. -/
def JotState.encode : JotState → Json
  | .Completed => .str "Completed"
  | .Removed => .str "Removed"
  | .InProgess => .str "InProgess"
  | .Failed => .str "Failed"
  | .NotStarted => .str "NotStarted"

/-- Modelled from the spec: deserializer for `JotState`. -/
def JotState.decode : Json → Option JotState
  | .str "Completed" => some .Completed
  | .str "Removed" => some .Removed
  | .str "InProgess" => some .InProgess
  | .str "Failed" => some .Failed
  | .str "NotStarted" => some .NotStarted
  | _ => none

/-- Modelled from the spec: a jot serializes as its content+state pair. -/
def Jot.encode (j : Jot) : Json :=
  .obj [("value", .str j.value), ("state", j.state.encode)]

/-- Modelled from the spec: deserializer for `Jot`. -/
def Jot.decode : Json → Option Jot
  | .obj [("value", .str v), ("state", s)] =>
    match JotState.decode s with
    | some st => some { value := v, state := st }
    | none => none
  | _ => none

/-- Modelled from the spec: an interval serializes as an externally tagged
union, `InProgress{start}` or `Complete{start,end}`. -/
def DateInterval.encode : DateInterval → Json
  | .InProgress start => .obj [("InProgress", .obj [("start", .num start)])]
  | .Complete start endDate =>
      .obj [("Complete", .obj [("start", .num start), ("end", .num endDate)])]

/-- Modelled from the spec: deserializer for `DateInterval`. -/
def DateInterval.decode : Json → Option DateInterval
  | .obj [("InProgress", .obj [("start", .num s)])] => some (.InProgress s)
  | .obj [("Complete", .obj [("start", .num s), ("end", .num e)])] =>
      some (.Complete s e)
  | _ => none

/-- Decode every element of a JSON list, failing if any element fails. -/
def decodeJsonList (f : Json → Option α) : List Json → Option (List α)
  | [] => some []
  | x :: xs =>
    match f x, decodeJsonList f xs with
    | some a, some rest => some (a :: rest)
    | _, _ => none

/-- Modelled from the spec: a jot set serializes as its jots and interval. -/
def JotSet.encode (s : JotSet) : Json :=
  .obj [("jots", .arr (s.jots.map Jot.encode)), ("interval", s.interval.encode)]

/-- Modelled from the spec: deserializer for `JotSet`. -/
def JotSet.decode : Json → Option JotSet
  | .obj [("jots", .arr js), ("interval", i)] =>
    match decodeJsonList Jot.decode js, DateInterval.decode i with
    | some jots, some interval => some { jots := jots, interval := interval }
    | _, _ => none
  | _ => none

/-- Modelled from the spec: the history serializes as its record of sets. -/
def JotHistory.encode (h : JotHistory) : Json :=
  .obj [("sets", .arr (h.sets.map JotSet.encode))]

/-- Modelled from the spec: deserializer for `JotHistory`. -/
def JotHistory.decode : Json → Option JotHistory
  | .obj [("sets", .arr ss)] =>
    match decodeJsonList JotSet.decode ss with
    | some sets => some { sets := sets }
    | none => none
  | _ => none

/-!
Concrete values used by the witness theorems, taken from the spec's
scenario: a single in-progress set holding a non-terminal and a terminal
jot (dates are day counts: day 0 stands for the start, day 7 for the roll).
-/

def milkJot : Jot := { value := "buy milk", state := .NotStarted }

def reportJot : Jot := { value := "ship report", state := .Completed }

def exampleSet : JotSet := { jots := [milkJot, reportJot], interval := .InProgress 0 }

def exampleHistory : JotHistory := { sets := [exampleSet] }

def newMilkJot : Jot := { value := "buy milk", state := .Completed }

/-!
Round-trip lemmas for the serialization model.
-/

theorem jotState_roundtrip (s : JotState) : JotState.decode s.encode = some s := by
  cases s <;> rfl

theorem jot_roundtrip (j : Jot) : Jot.decode j.encode = some j := by
  cases j with
  | mk v s => cases s <;> rfl

theorem dateInterval_roundtrip (i : DateInterval) :
    DateInterval.decode i.encode = some i := by
  cases i <;> rfl

theorem decodeJsonList_map {α : Type} (f : Json → Option α) (g : α → Json)
    (hfg : ∀ a, f (g a) = some a) (l : List α) :
    decodeJsonList f (l.map g) = some l := by
  induction l with
  | nil => rfl
  | cons x xs ih => simp [List.map, decodeJsonList, hfg, ih]

theorem jotSet_roundtrip (s : JotSet) : JotSet.decode s.encode = some s := by
  cases s with
  | mk jots interval =>
    simp [JotSet.encode, JotSet.decode,
      decodeJsonList_map Jot.decode Jot.encode jot_roundtrip,
      dateInterval_roundtrip]

/-- Claim C9: serializing a `JotHistory` and deserializing the result yields
a structurally equal history: the same sets in the same order, each with the
same jots (content and state) and the same interval tag and dates. -/
theorem jotHistory_roundtrip (h : JotHistory) :
    JotHistory.decode h.encode = some h := by
  cases h with
  | mk sets =>
    simp [JotHistory.encode, JotHistory.decode,
      decodeJsonList_map JotSet.decode JotSet.encode jotSet_roundtrip]

/-!
General helper lemmas.
-/

theorem getLast_some_ne_nil {α : Type} {l : List α} {a : α}
    (h : l.getLast? = some a) : l ≠ [] := by
  intro hnil
  subst hnil
  simp at h

theorem find_first_characterisation {α : Type} (p : α → Bool) (l : List α) (a : α)
    (h : l.find? p = some a) :
    p a = true ∧ ∃ i, ∃ hi : i < l.length, l.get ⟨i, hi⟩ = a ∧
      ∀ j, ∀ hj : j < l.length, j < i → p (l.get ⟨j, hj⟩) = false := by
  induction l with
  | nil => simp at h
  | cons x xs ih =>
    cases hx : p x with
    | true =>
      rw [List.find?_cons_of_pos _ hx] at h
      cases h
      refine ⟨hx, 0, by simp, rfl, ?_⟩
      intro j hj hlt
      exact absurd hlt (Nat.not_lt_zero j)
    | false =>
      rw [List.find?_cons_of_neg _ (by simp [hx])] at h
      obtain ⟨hpa, i, hi, hget, hfirst⟩ := ih h
      refine ⟨hpa, i + 1, Nat.succ_lt_succ hi, hget, ?_⟩
      intro j hj hlt
      cases j with
      | zero => exact hx
      | succ k => exact hfirst k (Nat.lt_of_succ_lt_succ hj) (Nat.lt_of_succ_lt_succ hlt)

/-- Claim C1 (code bug evidence): on a history whose current set has two
jots, replacing the jot at index 5 panics — modelled as `none`, with no
recoverable-error result and no surviving history — rather than reporting a
recoverable out-of-bounds error that leaves the history unmodified. -/
theorem set_jot_out_of_bounds_panics :
    exampleHistory.set_jot newMilkJot 5 = none := by
  decide

/-- The predicate scanned by `get_with_date` is the spec containment rule. -/
theorem get_with_date_eq_find (h : JotHistory) (d : Date) :
    h.get_with_date d = h.sets.find? (fun s => s.interval.containsDate d) := rfl

/-- Claim C5: `get_with_date` returns the first set in stored order whose
interval contains the date (InProgress: `d >= start`; Complete:
`start <= d <= end`), and returns `none` exactly when no interval contains
the date, in particular when the date precedes every interval's start. -/
theorem get_with_date_spec (h : JotHistory) (d : Date) :
    (∀ s, h.get_with_date d = some s →
       DateInterval.containsDate s.interval d = true ∧
       ∃ i, ∃ hi : i < h.sets.length, h.sets.get ⟨i, hi⟩ = s ∧
         ∀ j, ∀ hj : j < h.sets.length, j < i →
           DateInterval.containsDate (h.sets.get ⟨j, hj⟩).interval d = false) ∧
    (h.get_with_date d = none ↔
       ∀ s ∈ h.sets, DateInterval.containsDate s.interval d = false) ∧
    ((∀ s ∈ h.sets, d < s.interval.startDate) → h.get_with_date d = none) := by
  rw [get_with_date_eq_find]
  refine ⟨?_, ?_, ?_⟩
  · intro s hs
    exact find_first_characterisation _ _ _ hs
  · rw [List.find?_eq_none]
    constructor
    · intro hall s hs
      have := hall s hs
      simpa using this
    · intro hall s hs
      simp [hall s hs]
  · intro hall
    rw [List.find?_eq_none]
    intro s hs
    have hd := hall s hs
    obtain ⟨jots, interval⟩ := s
    cases interval with
    | InProgress start =>
      simp [DateInterval.startDate] at hd
      simp [DateInterval.containsDate]
      exact hd
    | Complete start endDate =>
      simp [DateInterval.startDate] at hd
      simp [DateInterval.containsDate]
      intro hle
      exact absurd hd (not_lt.mpr hle)

/-- Claim C6: `filter_by_states` with an empty state list is the identity on
the set (jot sequence and interval); with a non-empty state list it keeps the
interval and its jot sequence is exactly the subsequence of occurrences whose
state is a member of the list — original relative order and multiplicity, no
occurrence introduced or removed beyond the filter. -/
theorem filter_by_states_spec (s : JotSet) (states : List JotState) :
    s.filter_by_states [] = s ∧
    (s.filter_by_states states).interval = s.interval ∧
    (states ≠ [] →
      (s.filter_by_states states).jots =
        s.jots.filter (fun j => decide (j.state ∈ states))) := by
  refine ⟨rfl, ?_, ?_⟩
  · unfold JotSet.filter_by_states
    split <;> rfl
  · intro hne
    have hemp : states.isEmpty = false := by
      cases states with
      | nil => exact absurd rfl hne
      | cons a l => rfl
    unfold JotSet.filter_by_states
    rw [hemp]
    simp only [Bool.false_eq_true, if_false]
    apply List.filter_congr
    intro j hj
    simp [List.contains]

/-- Claim C7: on a non-empty history, `insert` appends the jot at the end of
the last set's jot sequence and changes nothing else (the prefix of earlier
sets and the last set's interval are untouched), and `set`
(replace_current_set) replaces exactly the last element. -/
theorem insert_and_set_frame (h : JotHistory) (jot : Jot) (s : JotSet)
    (last : JotSet) (hlast : h.sets.getLast? = some last) :
    h.insert jot =
      some { sets := h.sets.dropLast ++
        [{ jots := last.jots ++ [jot], interval := last.interval }] } ∧
    h.set s = { sets := h.sets.dropLast ++ [s] } := by
  constructor
  · unfold JotHistory.insert
    rw [hlast]
  · rfl

/-- Claim C8: under the non-empty precondition, `get` (current) and `insert`
always succeed — the `unwrap`-failure branch is unreachable — and `get`
returns a copy of the last set. -/
theorem get_insert_succeed (h : JotHistory) (jot : Jot) (hne : h.sets ≠ []) :
    h.get = some (h.sets.getLast hne) ∧ ∃ h2, h.insert jot = some h2 := by
  constructor
  · unfold JotHistory.get
    exact List.getLast?_eq_getLast h.sets hne
  · unfold JotHistory.insert
    rw [List.getLast?_eq_getLast h.sets hne]
    exact ⟨_, rfl⟩

/-- On a non-empty history, `roll` produces exactly: the earlier sets, the
closed former current set, and the new current set of rolled jots. -/
theorem roll_eq (h : JotHistory) (now : Date) (last : JotSet)
    (hlast : h.sets.getLast? = some last) :
    h.roll now = some { sets := h.sets.dropLast ++
      [{ jots := last.jots, interval := specCloseInterval last.interval now },
       { jots := last.get_non_terminal_jots, interval := .InProgress now }] } := by
  unfold JotHistory.roll
  rw [hlast]
  cases hI : last.interval <;> simp [specCloseInterval, hI]

/-- Claim C2: on a non-empty history, `roll` removes the last set, closes its
interval (`InProgress{start}` becomes `Complete{start, end: today}`, an
already-`Complete` interval is left unchanged), pushes it back, and appends a
new current set with `InProgress{start: today}`; the number of sets grows by
exactly one. -/
theorem roll_closes_and_appends (h : JotHistory) (now : Date) (last : JotSet)
    (hlast : h.sets.getLast? = some last) :
    h.roll now = some { sets := h.sets.dropLast ++
      [{ jots := last.jots, interval := specCloseInterval last.interval now },
       { jots := last.get_non_terminal_jots, interval := .InProgress now }] } ∧
    ∀ h2, h.roll now = some h2 → h2.sets.length = h.sets.length + 1 := by
  have he := roll_eq h now last hlast
  refine ⟨he, ?_⟩
  intro h2 hh2
  rw [he] at hh2
  cases hh2
  have hne : h.sets ≠ [] := getLast_some_ne_nil hlast
  have hpos : 0 < h.sets.length := List.length_pos.mpr hne
  simp [List.length_dropLast]
  omega

/-- Claim C3: on a non-empty history, `roll` carries exactly the non-terminal
jots of the pre-roll current set into the post-roll current set, unchanged
and in original relative order, while every terminal jot stays only in the
archived (closed) set. -/
theorem roll_migrates_jots (h : JotHistory) (now : Date) (last : JotSet)
    (hlast : h.sets.getLast? = some last) :
    ∃ closed cur : JotSet,
      h.roll now = some { sets := h.sets.dropLast ++ [closed, cur] } ∧
      cur.jots = last.jots.filter (fun j => !j.is_terminal) ∧
      cur.interval = .InProgress now ∧
      closed.jots = last.jots ∧
      ∀ j ∈ last.jots, j.is_terminal = true → j ∈ closed.jots ∧ j ∉ cur.jots := by
  refine ⟨_, _, roll_eq h now last hlast, rfl, rfl, rfl, ?_⟩
  intro j hj hterm
  refine ⟨hj, ?_⟩
  simp [JotSet.get_non_terminal_jots, List.mem_filter, hterm]

/-- Claim C10: when the current set's interval is `InProgress{start}`, the
archived interval after `roll` ends on the very date the new current
interval starts — both are stamped with the single date computed during the
call, so no gap is left in the timeline. -/
theorem roll_no_gap (h : JotHistory) (now start : Date) (last : JotSet)
    (hlast : h.sets.getLast? = some last)
    (hip : last.interval = .InProgress start) :
    ∃ closed cur : JotSet,
      h.roll now = some { sets := h.sets.dropLast ++ [closed, cur] } ∧
      closed.interval = .Complete start now ∧
      cur.interval = .InProgress now ∧
      ∀ s e, closed.interval = .Complete s e → cur.interval = .InProgress e := by
  refine ⟨_, _, roll_eq h now last hlast, ?_, rfl, ?_⟩
  · simp [specCloseInterval, hip]
  · intro s e hce
    simp [specCloseInterval, hip] at hce
    rw [hce.2]

/-!
Preservation of the structural invariant — the sets sequence is non-empty
and every set before the last has a `Complete` interval — by each mutating
operation.
-/

theorem inv_insert {h h2 : JotHistory} (jot : Jot)
    (heq : h.insert jot = some h2)
    (ih : h.sets ≠ [] ∧ ∀ s ∈ h.sets.dropLast, s.interval.isComplete = true) :
    h2.sets ≠ [] ∧ ∀ s ∈ h2.sets.dropLast, s.interval.isComplete = true := by
  unfold JotHistory.insert at heq
  cases hl : h.sets.getLast? with
  | none => rw [hl] at heq; cases heq
  | some last =>
    rw [hl] at heq
    cases heq
    refine ⟨by simp, ?_⟩
    intro s hs
    rw [List.dropLast_concat] at hs
    exact ih.2 s hs

/-- On a non-empty history, `set_jot` reduces to a bounds check followed by
an in-place update of the last set. -/
theorem set_jot_eq (h : JotHistory) (jot : Jot) (index : Nat) (last : JotSet)
    (hlast : h.sets.getLast? = some last) :
    h.set_jot jot index =
      if index < last.jots.length then
        some { sets := h.sets.dropLast ++
               [{ jots := last.jots.set index jot, interval := last.interval }] }
      else none := by
  unfold JotHistory.set_jot
  rw [hlast]

theorem inv_set_jot {h h2 : JotHistory} (jot : Jot) (index : Nat)
    (heq : h.set_jot jot index = some h2)
    (ih : h.sets ≠ [] ∧ ∀ s ∈ h.sets.dropLast, s.interval.isComplete = true) :
    h2.sets ≠ [] ∧ ∀ s ∈ h2.sets.dropLast, s.interval.isComplete = true := by
  cases hl : h.sets.getLast? with
  | none =>
    unfold JotHistory.set_jot at heq
    rw [hl] at heq
    cases heq
  | some last =>
    rw [set_jot_eq h jot index last hl] at heq
    split at heq
    · cases heq
      refine ⟨by simp, ?_⟩
      intro s hs
      rw [List.dropLast_concat] at hs
      exact ih.2 s hs
    · cases heq

theorem inv_set {h : JotHistory} (s0 : JotSet)
    (ih : h.sets ≠ [] ∧ ∀ s ∈ h.sets.dropLast, s.interval.isComplete = true) :
    (h.set s0).sets ≠ [] ∧
    ∀ s ∈ (h.set s0).sets.dropLast, s.interval.isComplete = true := by
  refine ⟨by simp [JotHistory.set], ?_⟩
  intro s hs
  unfold JotHistory.set at hs
  simp only [List.dropLast_concat] at hs
  exact ih.2 s hs

theorem inv_roll {h h2 : JotHistory} (now : Date)
    (heq : h.roll now = some h2)
    (ih : h.sets ≠ [] ∧ ∀ s ∈ h.sets.dropLast, s.interval.isComplete = true) :
    h2.sets ≠ [] ∧ ∀ s ∈ h2.sets.dropLast, s.interval.isComplete = true := by
  cases hl : h.sets.getLast? with
  | none =>
    unfold JotHistory.roll at heq
    rw [hl] at heq
    cases heq
  | some last =>
    rw [roll_eq h now last hl] at heq
    cases heq
    refine ⟨by simp, ?_⟩
    intro s hs
    have hre : h.sets.dropLast ++
        [{ jots := last.jots, interval := specCloseInterval last.interval now },
         { jots := last.get_non_terminal_jots,
           interval := DateInterval.InProgress now }] =
        (h.sets.dropLast ++
         [{ jots := last.jots, interval := specCloseInterval last.interval now }]) ++
        [{ jots := last.get_non_terminal_jots,
           interval := DateInterval.InProgress now }] := by
      simp
    rw [hre, List.dropLast_concat, List.mem_append] at hs
    cases hs with
    | inl hin => exact ih.2 s hin
    | inr hin =>
      simp at hin
      rw [hin]
      cases hI : last.interval <;> simp [specCloseInterval, hI, DateInterval.isComplete]

/-- Claim C4: every history reachable from construction by `insert`,
`set_jot` (replace_jot), `set` (replace_current_set) and `roll` has a
non-empty sets sequence, every set before the last has a `Complete`
interval, and so the last set is the only one that may be `InProgress`. -/
theorem reachable_invariant (h : JotHistory) (hr : Reachable h) :
    h.sets ≠ [] ∧
    (∀ s ∈ h.sets.dropLast, s.interval.isComplete = true) ∧
    (∀ i, ∀ hi : i < h.sets.length,
       (h.sets.get ⟨i, hi⟩).interval.isComplete = false →
       i = h.sets.length - 1) := by
  have main : h.sets ≠ [] ∧ ∀ s ∈ h.sets.dropLast, s.interval.isComplete = true := by
    induction hr with
    | init today => exact ⟨by simp, by simp⟩
    | insert jot hrec heq ih => exact inv_insert jot heq ih
    | set_jot jot index hrec heq ih => exact inv_set_jot jot index heq ih
    | set s0 hrec ih => exact inv_set s0 ih
    | roll now hrec heq ih => exact inv_roll now heq ih
  refine ⟨main.1, main.2, ?_⟩
  intro i hi hfalse
  by_contra hne2
  have hlt : i < h.sets.length - 1 := by omega
  have hdl : i < h.sets.dropLast.length := by
    rw [List.length_dropLast]
    exact hlt
  have hgd : h.sets.dropLast.get ⟨i, hdl⟩ = h.sets.get ⟨i, hi⟩ := by
    simp [List.getElem_dropLast]
  have hmem : h.sets.get ⟨i, hi⟩ ∈ h.sets.dropLast := by
    rw [← hgd]
    exact List.get_mem _ _ hdl
  have hc := main.2 _ hmem
  rw [hfalse] at hc
  cases hc

/-!
Witness theorems: each applies its theorem at a concrete input, discharging
the hypotheses there.
-/

theorem roll_closes_and_appends_witness :
    exampleHistory.roll 7 = some { sets := exampleHistory.sets.dropLast ++
      [{ jots := exampleSet.jots, interval := specCloseInterval exampleSet.interval 7 },
       { jots := exampleSet.get_non_terminal_jots, interval := .InProgress 7 }] } ∧
    ∀ h2, exampleHistory.roll 7 = some h2 →
      h2.sets.length = exampleHistory.sets.length + 1 :=
  roll_closes_and_appends exampleHistory 7 exampleSet rfl

theorem roll_migrates_jots_witness :
    ∃ closed cur : JotSet,
      exampleHistory.roll 7 =
        some { sets := exampleHistory.sets.dropLast ++ [closed, cur] } ∧
      cur.jots = exampleSet.jots.filter (fun j => !j.is_terminal) ∧
      cur.interval = .InProgress 7 ∧
      closed.jots = exampleSet.jots ∧
      ∀ j ∈ exampleSet.jots, j.is_terminal = true →
        j ∈ closed.jots ∧ j ∉ cur.jots :=
  roll_migrates_jots exampleHistory 7 exampleSet rfl

theorem roll_no_gap_witness :
    ∃ closed cur : JotSet,
      exampleHistory.roll 7 =
        some { sets := exampleHistory.sets.dropLast ++ [closed, cur] } ∧
      closed.interval = .Complete 0 7 ∧
      cur.interval = .InProgress 7 ∧
      ∀ s e, closed.interval = .Complete s e → cur.interval = .InProgress e :=
  roll_no_gap exampleHistory 7 0 exampleSet rfl rfl

theorem insert_and_set_frame_witness :
    exampleHistory.insert newMilkJot =
      some { sets := exampleHistory.sets.dropLast ++
        [{ jots := exampleSet.jots ++ [newMilkJot],
           interval := exampleSet.interval }] } ∧
    exampleHistory.set (JotSet.defaultSet 9) =
      { sets := exampleHistory.sets.dropLast ++ [JotSet.defaultSet 9] } :=
  insert_and_set_frame exampleHistory newMilkJot (JotSet.defaultSet 9) exampleSet rfl

theorem get_insert_succeed_witness :
    exampleHistory.get = some exampleSet ∧
    ∃ h2, exampleHistory.insert milkJot = some h2 :=
  get_insert_succeed exampleHistory milkJot (by decide)

theorem reachable_invariant_witness :
    ({ sets := [JotSet.defaultSet 0] } : JotHistory).sets ≠ [] ∧
    (∀ s ∈ ({ sets := [JotSet.defaultSet 0] } : JotHistory).sets.dropLast,
       s.interval.isComplete = true) ∧
    (∀ i, ∀ hi : i < ({ sets := [JotSet.defaultSet 0] } : JotHistory).sets.length,
       (({ sets := [JotSet.defaultSet 0] } : JotHistory).sets.get
          ⟨i, hi⟩).interval.isComplete = false →
       i = ({ sets := [JotSet.defaultSet 0] } : JotHistory).sets.length - 1) :=
  reachable_invariant _ (Reachable.init 0)
